import Mathlib

/-!
Verification development for the course_mapper repository.

The definitions below are shallow embeddings of the Python sources
`course_mapper.py` and `course_mapper_utils.py`.  Python sets are
modelled as duplicate-free lists built with `List.insert`; Python dicts
used as association maps are modelled as association lists with
last-write-wins update; the database catalog lookup `courses_cache` is
modelled as an explicit function parameter.  Logging side effects are
dropped except where a claim is about them, in which case they are
modelled as explicit event values.
-/

namespace CourseMapper

/-! ### String utilities -/

/-- Zero-pad the decimal representation of a number to six characters,
after the format `{course_id:06}` used in `mogrify_course_list`. -/
def pad6 (n : Nat) : String :=
  let s := toString n
  ⟨List.replicate (6 - s.length) '0'⟩ ++ s

/-- Containment of `needle` in `hay` as a contiguous substring, after the
Python `in` operator on strings. -/
def subOf (needle : List Char) : List Char → Bool
  | [] => needle.isEmpty
  | c :: rest => needle.isPrefixOf (c :: rest) || subOf needle rest

/-- Upper-cased character list of a string (Python `s.upper()`; kept on
character lists so that proofs can evaluate it). -/
def upperL (s : String) : List Char := s.data.map Char.toUpper

/-- Lower-cased character list of a string (Python `s.lower()`). -/
def lowerL (s : String) : List Char := s.data.map Char.toLower

/-- Whitespace-trim of a character list (Python `s.strip()`). -/
def trimL (l : List Char) : List Char :=
  ((l.dropWhile Char.isWhitespace).reverse.dropWhile Char.isWhitespace).reverse

/-- Worker for `replCI`, structurally recursive on a fuel argument that
bounds the number of characters still to scan; every step consumes at
least one character of the haystack, so fuel equal to the haystack
length never runs out. -/
def replCIAux (pat : List Char) (repl : List Char) : Nat → List Char → List Char
  | 0, hay => hay
  | fuel + 1, hay =>
    match hay with
    | [] => []
    | c :: rest =>
      if pat ≠ [] ∧ (hay.take pat.length).map Char.toLower = pat then
        repl ++ replCIAux pat repl fuel (hay.drop pat.length)
      else
        c :: replCIAux pat repl fuel rest

/-- Case-insensitive replace-all of the literal pattern `pat` (given in
lower case) by `repl`, scanning left to right without overlap: the
behaviour of Python `re.sub(pat, repl, s, flags=re.I)` for a pattern with
no regex metacharacters. -/
def replCI (pat : List Char) (repl : List Char) (hay : List Char) : List Char :=
  replCIAux pat repl hay.length hay

/-! ### Catalog data model

`CourseInfo` is the record returned by `courses_cache` (named
`CourseTuple` in the source comment: course_id, offer_nbr, title,
credits, career, plus the discipline and catalog number used when
formatting). -/

structure CourseInfo where
  course_id : Nat
  offer_nbr : Nat
  discipline : String
  catalog_number : String
  course_title : String
  credits : String
  career : String
  deriving DecidableEq, Repr

/-- The namedtuple `MogrifiedInfo` from `course_mapper_utils.py`. -/
structure MogrifiedInfo where
  course_id_str : String
  course_str : String
  credits : String
  career : String
  with_clause : String
  deriving DecidableEq, Repr

/-- One scribed 3-tuple `(discipline, catalog_number, with_clause)`. -/
structure CourseTupleS where
  discipline : String
  catalog_number : String
  with_clause : Option String
  deriving DecidableEq, Repr

/-- The `course_dict` consumed by `mogrify_course_list`: scribed areas,
include list (ignored by the code) and except list. -/
structure CourseDictS where
  scribed_courses : List (List CourseTupleS)
  include_courses : List CourseTupleS
  except_courses : List CourseTupleS
  deriving DecidableEq, Repr

/-- The catalog lookup `courses_cache(institution, discipline,
catalog_number)`, wildcard and range expansion included, as an abstract
function. -/
abbrev Cache := String → String → String → List CourseInfo

/-- Format of the `course_id_str` field: `{course_id:06}:{offer_nbr}`. -/
def fmtIdStr (ci : CourseInfo) : String :=
  pad6 ci.course_id ++ ":" ++ toString ci.offer_nbr

/-- Format of the `course_str` field:
`{discipline} {catalog_number}: {course_title}`. -/
def courseStrOf (ci : CourseInfo) : String :=
  ci.discipline ++ " " ++ ci.catalog_number ++ ": " ++ ci.course_title

/-! ### mogrify_course_list -/

/-- Whether a scribed tuple carries a truthy with-clause that mentions
dwterm or attribute (case-insensitively); for such a tuple the inner
loop of `mogrify_course_list` hits `continue` and never adds the
expanded catalog courses to the course set. -/
def tupleBad (t : CourseTupleS) : Bool :=
  match t.with_clause with
  | none => false
  | some w =>
    if w = "" then false
    else subOf ("dwterm".data) (lowerL w) || subOf ("attribute".data) (lowerL w)

/-- Last-write-wins update of the `with_clauses` association map. -/
def assocUpdate (m : List ((Nat × Nat) × String)) (k : Nat × Nat) (v : String) :
    List ((Nat × Nat) × String) :=
  (m.filter (fun p => decide (p.1 ≠ k))) ++ [(k, v)]

/-- Lookup in the `with_clauses` association map. -/
def assocFind (m : List ((Nat × Nat) × String)) (k : Nat × Nat) : Option String :=
  (m.find? (fun p => decide (p.1 = k))).map (·.2)

/-- The body of the scribed-courses loop of `mogrify_course_list` for one
expanded catalog course of one scribed tuple: skip the course entirely
when the with-clause mentions dwterm or attribute, otherwise record the
lower-cased with-clause (when truthy) and add the course to the set. -/
def scribedInsert (t : CourseTupleS) (ci : CourseInfo)
    (acc : List CourseInfo × List ((Nat × Nat) × String)) :
    List CourseInfo × List ((Nat × Nat) × String) :=
  match t.with_clause with
  | none => (acc.1.insert ci, acc.2)
  | some w =>
    if w = "" then (acc.1.insert ci, acc.2)
    else
      let wl := lowerL w
      if subOf ("dwterm".data) wl || subOf ("attribute".data) wl then acc
      else (acc.1.insert ci, assocUpdate acc.2 (ci.course_id, ci.offer_nbr) (⟨wl⟩ : String))

/-- Inner loop over the catalog expansion of one scribed tuple. -/
def addScribedInfos (t : CourseTupleS) :
    List CourseInfo → List CourseInfo × List ((Nat × Nat) × String) →
      List CourseInfo × List ((Nat × Nat) × String)
  | [], acc => acc
  | ci :: cis, acc => addScribedInfos t cis (scribedInsert t ci acc)

/-- Outer loop over the deduplicated scribed tuples, building the course
set and the with-clauses map. -/
def scribedPass (cache : Cache) (inst : String) :
    List CourseTupleS → List CourseInfo × List ((Nat × Nat) × String) →
      List CourseInfo × List ((Nat × Nat) × String)
  | [], acc => acc
  | t :: ts, acc =>
    scribedPass cache inst ts (addScribedInfos t (cache inst t.discipline t.catalog_number) acc)

/-- Inner loop over the catalog expansion of one exclude tuple. -/
def addExcludeInfos : List CourseInfo → List CourseInfo → List CourseInfo
  | [], s => s
  | ci :: cis, s => addExcludeInfos cis (s.insert ci)

/-- Loop over the deduplicated exclude tuples, building the exclude set. -/
def excludePass (cache : Cache) (inst : String) :
    List CourseTupleS → List CourseInfo → List CourseInfo
  | [], s => s
  | t :: ts, s =>
    excludePass cache inst ts (addExcludeInfos (cache inst t.discipline t.catalog_number) s)

/-- The scribed course list flattened across areas
(`[tuple(course) for area in course_list for course in area]`). -/
def scribedTuples (cd : CourseDictS) : List CourseTupleS :=
  cd.scribed_courses.foldr (· ++ ·) []

/-- The course set built by the scribed-courses loop. -/
def courseInfoSet (cache : Cache) (inst : String) (cd : CourseDictS) :
    List CourseInfo × List ((Nat × Nat) × String) :=
  scribedPass cache inst ((scribedTuples cd).dedup) ([], [])

/-- The exclude set built from `except_courses`. -/
def excludeInfoSet (cache : Cache) (inst : String) (cd : CourseDictS) : List CourseInfo :=
  excludePass cache inst (cd.except_courses.dedup) []

/-- All catalog records bound to the loop variable `course_info` during
`mogrify_course_list`, in binding order: the scribed loop runs first,
the exclude loop second.  Line 583 of `course_mapper_utils.py` reads
this variable after both loops have finished, so the with-clause
attached to every returned record is looked up under the key of the
last record in this list. -/
def allBoundInfos (cache : Cache) (inst : String) (cd : CourseDictS) : List CourseInfo :=
  (((scribedTuples cd).dedup).map (fun t => cache inst t.discipline t.catalog_number)).foldr
      (· ++ ·) []
    ++ ((cd.except_courses.dedup).map (fun t => cache inst t.discipline t.catalog_number)).foldr
      (· ++ ·) []

/-- Embedding of `mogrify_course_list` from `course_mapper_utils.py`.
The final loop of the source reads the stale loop variable
`course_info` (not the loop variable `course` of that final loop) when
looking up the with-clause, so every returned record carries the same
with-clause value; the model reproduces this. -/
def mogrify_course_list (cache : Cache) (inst : String) (cd : CourseDictS) :
    List MogrifiedInfo :=
  let (cset, wcs) := courseInfoSet cache inst cd
  let eset := excludeInfoSet cache inst cd
  let resultSet := cset.filter (fun ci => decide (ci ∉ eset))
  let staleWith : String :=
    match (allBoundInfos cache inst cd).getLast? with
    | none => ""
    | some s => (assocFind wcs (s.course_id, s.offer_nbr)).getD ""
  resultSet.map (fun ci =>
    { course_id_str := fmtIdStr ci
      course_str := courseStrOf ci
      credits := ci.credits
      career := ci.career
      with_clause := staleWith })

/-- The set of course identities returned by `mogrify_course_list`. -/
def mogrifyIds (cache : Cache) (inst : String) (cd : CourseDictS) : List String :=
  (mogrify_course_list cache inst cd).map (·.course_id_str)

/-- Catalog expansion of a list of scribed tuples: the union of the
`courses_cache` results, with-clauses ignored. -/
def expandInfos (cache : Cache) (inst : String) : List CourseTupleS → List CourseInfo
  | [] => []
  | t :: ts => cache inst t.discipline t.catalog_number ++ expandInfos cache inst ts

/-- Course identities of a catalog expansion. -/
def expandIds (cache : Cache) (inst : String) (ts : List CourseTupleS) : List String :=
  (expandInfos cache inst ts).map fmtIdStr

/-- The scribed tuples that are not dropped by the dwterm/attribute
skip. -/
def goodScribed (cd : CourseDictS) : List CourseTupleS :=
  (scribedTuples cd).filter (fun t => !(tupleBad t))

/-- A catalog is consistent when any two records it returns for the same
institution that format to the same course identity are equal records.
A database-backed `courses_cache` satisfies this because the record
fields are attributes of the course row, independent of the query
pattern. -/
def CacheConsistent (cache : Cache) (inst : String) : Prop :=
  ∀ d1 c1 d2 c2 r1 r2, r1 ∈ cache inst d1 c1 → r2 ∈ cache inst d2 c2 →
    fmtIdStr r1 = fmtIdStr r2 → r1 = r2

/-! ### letter_grade -/

/-- Embedding of `letter_grade` from `course_mapper_utils.py`, with the
float `grade_point` modelled as a rational.  Python
`divmod((10 * g) - 7, 10)` is floored division with remainder, and
`int(...)` on the nonnegative quotients truncates toward zero, which is
`Int.toNat` of the floor here. -/
def letter_grade (grade_point : ℚ) : String :=
  if grade_point < 1 then "Any"
  else
    let x : ℚ := 10 * grade_point - 7
    let letter_index : ℤ := Int.floor (x / 10)
    let suffix_index : ℚ := x - 10 * (letter_index : ℚ)
    let letter := (["D", "C", "B", "A"].getD (min letter_index.toNat 3) "A")
    let suffix := (["-", "", "+"].getD (min (Int.floor (suffix_index / 3)).toNat 2) "+")
    letter ++ suffix

/-! ### Label templating in map_courses -/

/-- Everything after the first colon of a string, trimmed: the Python
`course_str.split(":", 1)[1].strip()` used to recover the course title
from the formatted course string. -/
def afterFirstColon (s : String) : String :=
  ⟨trimL ((s.data.dropWhile (fun c => c ≠ ':')).drop 1)⟩

/-- The placeholder substitution of `map_courses` (lines 463-475 of
`course_mapper.py`): a case-insensitive guard on the upper-cased label,
then `re.sub` with an ignore-case literal pattern.  The credits pattern
is spelled `courscredits` in the source while the guard checks for
`COURSECREDITS`; the embedding reproduces that spelling. -/
def templateLabel (label : String) (c0 : MogrifiedInfo) : String :=
  let name1 :=
    if subOf ("<COURSETITLE>".data) (upperL label) then
      (⟨replCI ("<coursetitle>".data) ((afterFirstColon c0.course_str).data) label.data⟩ : String)
    else label
  let name2 :=
    if subOf ("<COURSECREDITS>".data) (upperL name1) then
      (⟨replCI ("<courscredits>".data) (c0.credits.data) name1.data⟩ : String)
    else name1
  name2

/-! ### map_courses and the requirement-key counter -/

/-- One row of the CourseMappings output stream. -/
structure MapRow where
  requirement_key : Nat
  course_id_str : String
  career : String
  course_str : String
  with_clause : String
  deriving DecidableEq, Repr

/-- One row of the Requirements output stream (the fields a claim
mentions; plan/subplan name resolution and the serialized context are
not needed by any claim and are omitted). -/
structure ReqRow where
  institution : String
  requirement_ids : String
  requirement_key : Nat
  program_name : String
  requirement_name : String
  deriving DecidableEq, Repr

/-- The arguments of one `map_courses` call. -/
structure MapCall where
  institution : String
  requirement_ids : String
  block_title : String
  label : String
  course_dict : CourseDictS
  deriving Repr

/-- Embedding of `map_courses` from `course_mapper.py`: increment the
process-wide requirement key, normalize the course list, and when the
canonical list is non-empty emit one mapping row per canonical course
followed by one requirement row, all carrying the new key; when it is
empty emit nothing.  Returns the new counter with the emitted rows. -/
def map_courses (cache : Cache) (key : Nat) (call : MapCall) :
    Nat × List MapRow × Option ReqRow :=
  let key1 := key + 1
  let canonical := mogrify_course_list cache call.institution call.course_dict
  match canonical with
  | [] => (key1, [], none)
  | c0 :: _ =>
    let rows := canonical.map (fun ci =>
      { requirement_key := key1
        course_id_str := ci.course_id_str
        career := ci.career
        course_str := ci.course_str
        with_clause := ci.with_clause : MapRow })
    let requirement_name := templateLabel call.label c0
    (key1, rows,
      some { institution := call.institution
             requirement_ids := call.requirement_ids
             requirement_key := key1
             program_name := call.block_title
             requirement_name := requirement_name })

/-- A run of the mapper as the sequence of `map_courses` calls it makes,
threading the requirement-key counter and concatenating the two output
streams in emission order. -/
def run_map_courses (cache : Cache) (key : Nat) :
    List MapCall → Nat × List MapRow × List ReqRow
  | [] => (key, [], [])
  | c :: cs =>
    let r1 := map_courses cache key c
    let rest := run_map_courses cache r1.1 cs
    (rest.1, r1.2.1 ++ rest.2.1, r1.2.2.toList ++ rest.2.2)

/-! ### header_conditional tagging

The qualifier lists of `traverse_header`.  `tag` in `header_conditional`
routes a list name through `column_lists` and then `other_lists`; a name
in neither (maxclass, maxpassfail, maxperdisc, minperdisc, proxyadvice)
makes the source call `exit`, so only the eight taggable lists appear
here and items targeting the remaining lists are outside the model. -/

inductive QList where
  | totalCredits
  | maxtransfer
  | minres
  | mingrade
  | mingpa
  | maxcredit
  | minclass
  | mincredit
  deriving DecidableEq, Repr

/-- One element appended to a qualifier list: the interval-marker dicts
written by `tag` and the end-of-conditional loop, or a processed header
value. -/
inductive HEntry where
  | tagIf (cond : String)
  | tagElse
  | tagIfTrue (cond : String)
  | tagIfFalse (cond : String)
  | endifTag (cond : String)
  | val (payload : String)
  deriving DecidableEq, Repr

/-- Whether an entry is an end-of-conditional marker. -/
def HEntry.isEndMarker : HEntry → Bool
  | .endifTag _ => true
  | _ => false

/-- One item of a header conditional leg.  `qual` stands for the thirteen
`header_*` cases, which all call `tag` on their target list and then
append the processed value; `share` is ignored; `unknownKey` is the
logged-and-skipped default case; `nested` is a recursive conditional. -/
inductive HItem where
  | qual (target : QList) (payload : String)
  | share
  | unknownKey
  | nested (cond : String) (ifTrue : List HItem) (ifFalse : Option (List HItem))
  deriving Repr

/-- The qualifier lists of the return dict, as a function. -/
abbrev RD := QList → List HEntry

/-- Point update of the return dict. -/
def rdUpdate (rd : RD) (l : QList) (v : List HEntry) : RD :=
  fun x => if x = l then v else rd x

/-- The closure state of `tag`: the lists tagged so far on the true leg
and on the false leg of the current conditional. -/
structure TagSt where
  tt : List QList
  tf : List QList
  deriving Repr

/-- The open-tag dict `tag` appends: concise mode writes an if or else
dict, verbose mode writes an if_true or if_false dict. -/
def openTag (concise : Bool) (cond : String) (isTrue : Bool) : HEntry :=
  if concise then (if isTrue then .tagIf cond else .tagElse)
  else (if isTrue then .tagIfTrue cond else .tagIfFalse cond)

/-- Embedding of `tag` in `header_conditional`: append an open tag to the
target list the first time that list receives content on the current
leg, recording the list in the matching tagged-lists accumulator. -/
def tag (concise : Bool) (cond : String) (isTrue : Bool) (rd : RD) (st : TagSt)
    (l : QList) : RD × TagSt :=
  if isTrue then
    if l ∈ st.tt then (rd, st)
    else (rdUpdate rd l (rd l ++ [openTag concise cond true]), { st with tt := st.tt ++ [l] })
  else
    if l ∈ st.tf then (rd, st)
    else (rdUpdate rd l (rd l ++ [openTag concise cond false]), { st with tf := st.tf ++ [l] })

/-- The value stored in the endif dict: the condition string, blanked in
concise mode. -/
def endifStr (concise : Bool) (cond : String) : String :=
  if concise then "" else cond

/-- The loop at the end of `header_conditional`: append an endif marker
to every list recorded in `tagged_true_lists`. -/
def appendEndifs (concise : Bool) (cond : String) (rd : RD) : List QList → RD
  | [] => rd
  | l :: rest =>
    appendEndifs concise cond (rdUpdate rd l (rd l ++ [.endifTag (endifStr concise cond)])) rest

mutual

/-- Process the items of one leg of a header conditional in order,
threading the return dict and the tagged-lists state. -/
def hcLeg (concise : Bool) (cond : String) (isTrue : Bool) :
    RD → TagSt → List HItem → RD × TagSt
  | rd, st, [] => (rd, st)
  | rd, st, i :: rest =>
    let r := hcItem concise cond isTrue rd st i
    hcLeg concise cond isTrue r.1 r.2 rest

/-- Process one item of a leg: a qualifier case tags its target list and
appends the processed value; share and unrecognized keys only log; a
nested conditional recurses with its own (fresh) tagged-lists closure,
leaving the outer state untouched.  The nested case inlines the body of
`header_conditional`: both legs of the nested conditional share one
fresh closure, then its endif loop runs over the lists its true leg
tagged. -/
def hcItem (concise : Bool) (cond : String) (isTrue : Bool) (rd : RD) (st : TagSt) :
    HItem → RD × TagSt
  | .qual target payload =>
    let r := tag concise cond isTrue rd st target
    (rdUpdate r.1 target (r.1 target ++ [.val payload]), r.2)
  | .share => (rd, st)
  | .unknownKey => (rd, st)
  | .nested c ts fs =>
    let r1 := hcLeg concise c true rd ⟨[], []⟩ ts
    let r2 := match fs with
      | none => r1
      | some fsl => hcLeg concise c false r1.1 r1.2 fsl
    (appendEndifs concise c r2.1 r2.2.tt, st)

end

/-- The two legs of `header_conditional`, before the endif loop: the true
leg runs first, then the false leg when present, sharing one
tagged-lists closure. -/
def hcLegs (concise : Bool) (rd : RD) (cond : String) (ifTrue : List HItem)
    (ifFalse : Option (List HItem)) : RD × TagSt :=
  let r1 := hcLeg concise cond true rd ⟨[], []⟩ ifTrue
  match ifFalse with
  | none => r1
  | some fs => hcLeg concise cond false r1.1 r1.2 fs

/-- Embedding of `header_conditional` from `course_mapper.py`: process
both legs, then append an endif marker to every list recorded in
`tagged_true_lists` (and only those). -/
def header_conditional (concise : Bool) (rd : RD) (cond : String) (ifTrue : List HItem)
    (ifFalse : Option (List HItem)) : RD :=
  let r := hcLegs concise rd cond ifTrue ifFalse
  appendEndifs concise cond r.1 r.2.tt

/-! ### copy_rules and the cycle guard -/

/-- A context frame as seen by the body copy_rules cycle scan: a
block-entry frame stores its requirement_id under the block_info key, a
copy-rules splice frame stores it at top level, and the remaining frame
kinds carry no requirement_id. -/
inductive CFrame where
  | blockEntry (rid : String)
  | localCopy (rid : String)
  | plainFrame
  deriving DecidableEq, Repr

/-- Events of a copy_rules traversal. -/
inductive CEvent where
  | enter (rid : String)
  | refuseCircular (rid : String)
  | missing (rid : String)
  deriving DecidableEq, Repr

/-- Whether a frame is a copy-rules splice frame for `rid`: the body
copy_rules scan reads `context_dict["requirement_id"]`, a key only such
frames have (block-entry frames nest theirs under block_info, raising
KeyError there). -/
def isLocalWith (rid : String) : CFrame → Bool
  | .localCopy r => r = rid
  | _ => false

/-- The body copy_rules circularity test over the context list. -/
def bodyCircular (ctx : List CFrame) (target : String) : Bool :=
  ctx.any (isLocalWith target)

/-- A block map for the copy_rules slice of the interpreter: each block
is its ordered list of copy_rules targets (the node kinds the cycle
claim concerns). -/
abbrev BlockMap := String → Option (List String)

/-- Fuel-indexed embedding of the copy_rules handling of `traverse_body`:
for each target in order, a missing or non-current target is skipped
with a logged failure; a target whose requirement_id the context scan
finds is refused as circular; otherwise the target body is spliced
under a label frame and a copy-rules frame carrying the target id.
The fuel bounds the number of interpreter steps and is a modelling
artifact: the result is none exactly when the fuel runs out, and the
termination theorem shows some finite fuel always suffices. -/
def runBody (blocks : BlockMap) : Nat → List CFrame → List String → Option (List CEvent)
  | 0, _, _ => none
  | _ + 1, _, [] => some []
  | fuel + 1, ctx, t :: rest =>
    match blocks t with
    | none => (runBody blocks fuel ctx rest).map (CEvent.missing t :: ·)
    | some tBody =>
      if bodyCircular ctx t then
        (runBody blocks fuel ctx rest).map (CEvent.refuseCircular t :: ·)
      else
        match runBody blocks fuel (ctx ++ [CFrame.plainFrame, CFrame.localCopy t]) tBody with
        | none => none
        | some evs =>
          (runBody blocks fuel ctx rest).map (fun evs2 => CEvent.enter t :: evs ++ evs2)

/-- Interpret a top-level block: `process_block` pushes the block-entry
frame and traverses the body. -/
def runFromBlock (blocks : BlockMap) (fuel : Nat) (rid : String) : Option (List CEvent) :=
  match blocks rid with
  | none => some []
  | some body => runBody blocks fuel [CFrame.blockEntry rid] body

/-- The two-block cycle A to B to A through body copy_rules. -/
def blocksAB : BlockMap :=
  fun r => if r = "A" then some ["B"] else if r = "B" then some ["A"] else none

/-! ### Block-reference resolution -/

/-- One candidate row returned by the active-blocks query (the fields the
disambiguation reads). -/
structure RRow where
  requirement_id : String
  major1 : String
  deriving DecidableEq, Repr

/-- Outcome of resolving a block reference. -/
inductive BlockResolution where
  | found (b : RRow)
  | noneActive
  | ambiguous
  deriving DecidableEq, Repr

/-- Embedding of the body block case of `traverse_body` (lines
1079-1104): zero rows fail; one row is returned; several rows are
filtered by membership of major1 in the block values of the enclosing
context chain, and only a unique survivor is returned. -/
def resolve_body_block (rows : List RRow) (nested_block_values : List String) :
    BlockResolution :=
  match rows with
  | [] => .noneActive
  | [row] => .found row
  | _ =>
    match rows.filter (fun row => decide (row.major1 ∈ nested_block_values)) with
    | [m] => .found m
    | _ => .ambiguous

/-- Embedding of the group block case of `traverse_body` (lines
1365-1386): as the body case, except that several rows are filtered by
equality of major1 with the referenced block's own scribed block_value
(the local variable block_value is rebound to `value["block_value"]` at
line 1345 before the comparison at line 1374). -/
def resolve_group_block (rows : List RRow) (block_value : String) : BlockResolution :=
  match rows with
  | [] => .noneActive
  | [row] => .found row
  | _ =>
    match rows.filter (fun row => row.major1 == block_value) with
    | [m] => .found m
    | _ => .ambiguous

/-- Modelled from the spec: the resolver keeps, among multiple matches,
only candidates whose discriminator equals some block_value already
present in the enclosing context chain, returns the single survivor if
exactly one survives, and otherwise reports failure; zero matches fail
and a single match is returned. -/
def resolve_per_spec (rows : List RRow) (chain : List String) : BlockResolution :=
  if rows.length = 0 then .noneActive
  else if rows.length = 1 then .found (rows.getD 0 { requirement_id := "", major1 := "" })
  else
    if (rows.filter (fun row => chain.contains row.major1)).length = 1 then
      .found ((rows.filter (fun row => chain.contains row.major1)).getD 0
        { requirement_id := "", major1 := "" })
    else .ambiguous

/-! ### Subplan reference accounting and orphan processing -/

/-- A declared subplan of a plan. -/
structure SubplanInfo where
  rid : String
  subplan_name : String
  deriving DecidableEq, Repr

/-- Events produced while finishing a plan block. -/
inductive PlanEvent where
  | unreferencedLogged (rid : String)
  | multiplyLogged (rid : String) (n : Nat)
  | processedStandalone (rid : String) (anchor : String)
  deriving DecidableEq, Repr

/-- The increment performed by the non-plan branch of `process_block`
(lines 630-633): every subplan whose block requirement_id matches the
block being entered has its reference counter bumped. -/
def incrRef (states : List (SubplanInfo × Nat)) (rid : String) : List (SubplanInfo × Nat) :=
  states.map (fun sn => if sn.1.rid = rid then (sn.1, sn.2 + 1) else sn)

/-- Fold the increments over the requirement_ids of the nested blocks
entered while the plan body is traversed. -/
def traverseRefs (states : List (SubplanInfo × Nat)) : List String → List (SubplanInfo × Nat)
  | [] => states
  | r :: rs => traverseRefs (incrRef states r) rs

/-- The logging loop over the plan's subplans (lines 742-754): a zero
count logs the subplan as unreferenced and collects it for standalone
processing; a count above one logs it as multiply referenced. -/
def subplanLogPass : List (SubplanInfo × Nat) → List PlanEvent × List SubplanInfo
  | [] => ([], [])
  | sn :: rest =>
    let r := subplanLogPass rest
    if sn.2 = 0 then (.unreferencedLogged sn.1.rid :: r.1, sn.1 :: r.2)
    else if 1 < sn.2 then (.multiplyLogged sn.1.rid sn.2 :: r.1, r.2)
    else r

/-- Embedding of the plan-finishing slice of `process_block`: initialize
every declared subplan's counter to zero, apply the increments produced
by body traversal (`bodyRefs` lists the requirement_ids of the nested
blocks entered, in order), log zero and multiple reference counts, then
process every unreferenced subplan standalone with the plan block as
its only enclosing context. -/
def processPlan (planRid : String) (subplans : List SubplanInfo) (bodyRefs : List String) :
    List PlanEvent :=
  let states := traverseRefs (subplans.map (fun s => (s, 0))) bodyRefs
  let r := subplanLogPass states
  r.1 ++ r.2.map (fun s => .processedStandalone s.rid planRid)

/-- Projection of a standalone-processing event. -/
def standaloneOf : PlanEvent → Option (String × String)
  | .processedStandalone rid anchor => some (rid, anchor)
  | _ => none

/-- Projection of a multiply-referenced log event. -/
def multiplyOf : PlanEvent → Option (String × Nat)
  | .multiplyLogged rid n => some (rid, n)
  | _ => none

/-! ### Concrete instances used by counterexamples and witnesses -/

/-- A concrete catalog course. -/
def bio101 : CourseInfo :=
  { course_id := 101, offer_nbr := 1, discipline := "BIO", catalog_number := "101"
    course_title := "Introduction to Biology", credits := "3", career := "UGRD" }

/-- A concrete catalog course used by the dwterm counterexample. -/
def bio100 : CourseInfo :=
  { course_id := 100, offer_nbr := 1, discipline := "BIO", catalog_number := "100"
    course_title := "Biology Orientation", credits := "1", career := "UGRD" }

/-- A one-course catalog. -/
def cacheW : Cache :=
  fun _ d c => if d = "BIO" && c = "101" then [bio101] else []

/-- A catalog holding the two concrete courses. -/
def cacheW2 : Cache :=
  fun _ d c =>
    if d = "BIO" && c = "100" then [bio100]
    else if d = "BIO" && c = "101" then [bio101] else []

/-- A course dict scribing BIO 101 with no with-clause. -/
def cdPlain : CourseDictS :=
  { scribed_courses := [[{ discipline := "BIO", catalog_number := "101", with_clause := none }]]
    include_courses := []
    except_courses := [] }

/-- A course dict scribing BIO 100 under a DWTerm with-clause and
excluding nothing. -/
def cdDwterm : CourseDictS :=
  { scribed_courses := [[{ discipline := "BIO", catalog_number := "100"
                           with_clause := some "DWTerm = 1202" }]]
    include_courses := []
    except_courses := [] }

/-- A course dict whose catalog expansion is empty. -/
def cdEmpty : CourseDictS :=
  { scribed_courses := [[{ discipline := "XXX", catalog_number := "1", with_clause := none }]]
    include_courses := []
    except_courses := [] }

/-- The canonical first record for BIO 101 as `mogrify_course_list`
formats it. -/
def bio101m : MogrifiedInfo :=
  { course_id_str := "000101:1", course_str := "BIO 101: Introduction to Biology"
    credits := "3", career := "UGRD", with_clause := "" }

/-- A map_courses call whose normalization yields BIO 101. -/
def callPlain : MapCall :=
  { institution := "QNS01", requirement_ids := "RA000001", block_title := "Biology BA"
    label := "Unnamed Requirement", course_dict := cdPlain }

/-- A map_courses call whose normalization yields no courses. -/
def callEmpty : MapCall :=
  { institution := "QNS01", requirement_ids := "RA000001", block_title := "Biology BA"
    label := "Unnamed Requirement", course_dict := cdEmpty }

/-! ## Theorems -/

/-- C5.  The claim (and the docstring of `letter_grade`) says every
grade_point at or above 4.3 maps to A+ and that the result is
non-decreasing in the grade order; the code instead computes
divmod(40, 10) = (4, 0) at grade_point 4.7, caps the letter index at A
but keeps suffix index 0, and returns A-.  The conjuncts at 4.3, 4.0,
1.0 and 0.5 show the surrounding values the claim states, making the
monotonicity break (4.3 to A+, then 4.7 to A-) explicit. -/
theorem letter_grade_above_4_3_not_A_plus :
    letter_grade (47 / 10 : ℚ) = "A-" ∧
    letter_grade (43 / 10 : ℚ) = "A+" ∧
    letter_grade (4 : ℚ) = "A" ∧
    letter_grade (1 : ℚ) = "D" ∧
    letter_grade (1 / 2 : ℚ) = "Any" := by
  refine ⟨?_, ?_, ?_, ?_, ?_⟩ <;> (unfold letter_grade; norm_num [List.getD]) <;> rfl

/-- C6.  The guard in `map_courses` checks the label for the marker
COURSECREDITS, but the `re.sub` pattern is spelled courscredits (the
letter e of course is missing), so the marker is never replaced: the
label keeps the literal marker even though the canonical list is
non-empty.  The second conjunct shows the COURSETITLE half working as
claimed on the same first canonical record. -/
theorem coursecredits_marker_not_replaced :
    templateLabel "Take <COURSECREDITS> credits" bio101m = "Take <COURSECREDITS> credits" ∧
    templateLabel "Complete <COURSETITLE>" bio101m = "Complete Introduction to Biology" := by
  constructor <;> decide

/-- C4 counterexample.  In the body copy_rules chain A to B to A, the
reference targeting A is made while A's requirement_id sits in a
block-entry frame of the context, yet the interpreter enters A a second
time instead of refusing it: the cycle scan reads the top-level
requirement_id key that only copy-rules splice frames carry, so the
refusal only happens at the subsequent reference back to B. -/
theorem copy_rules_second_entry_not_refused :
    runFromBlock blocksAB 5 "A"
      = some [CEvent.enter "B", CEvent.enter "A", CEvent.refuseCircular "B"] ∧
    CEvent.enter "A"
      ∈ [CEvent.enter "B", CEvent.enter "A", CEvent.refuseCircular "B"] := by
  constructor <;> decide

/-- C3 counterexample.  A header Conditional whose false leg populates
only the min-gpa list concludes without any endif marker being appended
to that list: the endif loop of `header_conditional` iterates only over
`tagged_true_lists`, so a list opened during the false branch keeps an
unterminated open tag. -/
theorem header_conditional_false_leg_no_endif :
    (header_conditional false (fun _ => []) "X" []
        (some [HItem.qual QList.mingpa "3.0"])) QList.mingpa
      = [HEntry.tagIfFalse "X", HEntry.val "3.0"] ∧
    ((header_conditional false (fun _ => []) "X" []
        (some [HItem.qual QList.mingpa "3.0"])) QList.mingpa).countP HEntry.isEndMarker
      = 0 := by
  constructor <;> decide

/-- C7 counterexample.  A group block reference with two active
candidates is resolved by comparing major1 with the referenced block's
own scribed block_value, not by membership in the enclosing context
chain: with the chain carrying only the block value Z, the candidate
with major1 X (not in the chain) is still descended into, while the
claimed rule would have kept no candidate and skipped the reference. -/
theorem group_block_ignores_context_chain :
    resolve_group_block
        [{ requirement_id := "R1", major1 := "X" }, { requirement_id := "R2", major1 := "Y" }]
        "X"
      = BlockResolution.found { requirement_id := "R1", major1 := "X" } ∧
    ("X" ∈ (["Z"] : List String)) = False ∧
    resolve_per_spec
        [{ requirement_id := "R1", major1 := "X" }, { requirement_id := "R2", major1 := "Y" }]
        ["Z"]
      = BlockResolution.ambiguous := by
  refine ⟨?_, ?_, ?_⟩ <;> decide

/-! ### Helper lemmas for block resolution -/

theorem resolve_body_eq_spec (rows : List RRow) (chain : List String) :
    resolve_body_block rows chain = resolve_per_spec rows chain := by
  match rows with
  | [] => rfl
  | [a] => rfl
  | a :: b :: rest =>
    unfold resolve_body_block resolve_per_spec
    simp only [List.length_cons]
    have hlen : ¬(rest.length + 1 + 1 = 0) := by omega
    have hlen1 : ¬(rest.length + 1 + 1 = 1) := by omega
    rw [if_neg hlen, if_neg hlen1]
    have hpred : (fun row => chain.contains row.major1)
        = (fun row : RRow => decide (row.major1 ∈ chain)) := by
      funext x
      simp [List.contains, List.elem_eq_mem]
    rw [hpred]
    rcases hm : (a :: b :: rest).filter (fun row => decide (row.major1 ∈ chain)) with
        _ | ⟨m, _ | ⟨m2, tl⟩⟩ <;> rw [hm] <;> simp

theorem resolve_group_eq_spec (rows : List RRow) (v : String) :
    resolve_group_block rows v = resolve_per_spec rows [v] := by
  match rows with
  | [] => rfl
  | [a] => rfl
  | a :: b :: rest =>
    unfold resolve_group_block resolve_per_spec
    simp only [List.length_cons]
    have hlen : ¬(rest.length + 1 + 1 = 0) := by omega
    have hlen1 : ¬(rest.length + 1 + 1 = 1) := by omega
    rw [if_neg hlen, if_neg hlen1]
    have hpred : (fun row => List.contains [v] row.major1)
        = (fun row : RRow => row.major1 == v) := by
      funext x
      simp only [List.contains, List.elem]
      cases x.major1 == v <;> rfl
    rw [hpred]
    rcases hm : (a :: b :: rest).filter (fun row => row.major1 == v) with
        _ | ⟨m, _ | ⟨m2, tl⟩⟩ <;> rw [hm] <;> simp

/-- C7.  Amended resolution rules.  Zero matches fail and a unique match
is returned in every case, but only the body block case disambiguates
multiple matches by membership of major1 in the enclosing context
chain; the group block case applies the same procedure with the chain
replaced by the single scribed block_value of the reference itself
(`resolve_per_spec rows [v]`), so a candidate can be descended into
even when its discriminator appears nowhere in the enclosing chain. -/
theorem block_resolution_rules :
    (∀ rows chain, resolve_body_block rows chain = resolve_per_spec rows chain) ∧
    (∀ rows v, resolve_group_block rows v = resolve_per_spec rows [v]) :=
  ⟨resolve_body_eq_spec, resolve_group_eq_spec⟩

/-! ### Helper lemmas for subplan accounting -/

theorem incrRef_map (sps : List SubplanInfo) (f : SubplanInfo → Nat) (r : String) :
    incrRef (sps.map (fun s => (s, f s))) r
      = sps.map (fun s => (s, if s.rid = r then f s + 1 else f s)) := by
  unfold incrRef
  rw [List.map_map]
  apply List.map_congr_left
  intro s _
  by_cases h : s.rid = r <;> simp [h]

theorem traverseRefs_counts (sps : List SubplanInfo) (refs : List String) :
    ∀ f : SubplanInfo → Nat,
      traverseRefs (sps.map (fun s => (s, f s))) refs
        = sps.map (fun s => (s, f s + refs.count s.rid)) := by
  induction refs with
  | nil => intro f; simp [traverseRefs]
  | cons r rs ih =>
    intro f
    unfold traverseRefs
    rw [incrRef_map, ih (fun s => if s.rid = r then f s + 1 else f s)]
    apply List.map_congr_left
    intro s _
    by_cases h : s.rid = r <;>
      simp [h, List.count_cons] <;> omega

theorem subplanLogPass_orphans (states : List (SubplanInfo × Nat)) :
    (subplanLogPass states).2 = (states.filter (fun sn => decide (sn.2 = 0))).map (·.1) := by
  induction states with
  | nil => rfl
  | cons sn rest ih =>
    unfold subplanLogPass
    by_cases h0 : sn.2 = 0
    · simp [h0, ih]
    · by_cases h1 : 1 < sn.2 <;> simp [h0, h1, ih]

theorem subplanLogPass_multiply (states : List (SubplanInfo × Nat)) :
    (subplanLogPass states).1.filterMap multiplyOf
      = (states.filter (fun sn => decide (1 < sn.2))).map (fun sn => (sn.1.rid, sn.2)) := by
  induction states with
  | nil => rfl
  | cons sn rest ih =>
    unfold subplanLogPass
    by_cases h0 : sn.2 = 0
    · have h1 : ¬(1 < sn.2) := by omega
      simp [h0, h1, ih, multiplyOf]
    · by_cases h1 : 1 < sn.2 <;> simp [h0, h1, ih, multiplyOf]

theorem subplanLogPass_no_standalone (states : List (SubplanInfo × Nat)) :
    (subplanLogPass states).1.filterMap standaloneOf = [] := by
  induction states with
  | nil => rfl
  | cons sn rest ih =>
    unfold subplanLogPass
    by_cases h0 : sn.2 = 0
    · simp [h0, ih, standaloneOf]
    · by_cases h1 : 1 < sn.2 <;> simp [h0, h1, ih, standaloneOf]

/-- C8.  Orphan accounting: after the whole plan body has been
interpreted (`bodyRefs` lists the requirement_ids of the nested blocks
entered), the subplans processed standalone are exactly those never
referenced, each anchored directly under the plan block, and the
subplans logged as multiply referenced are exactly those referenced
more than once, with their counts; no error event exists. -/
theorem plan_orphan_accounting (p : String) (sps : List SubplanInfo) (refs : List String) :
    (processPlan p sps refs).filterMap standaloneOf
        = (sps.filter (fun s => decide (refs.count s.rid = 0))).map (fun s => (s.rid, p)) ∧
    (processPlan p sps refs).filterMap multiplyOf
        = (sps.filter (fun s => decide (1 < refs.count s.rid))).map
            (fun s => (s.rid, refs.count s.rid)) := by
  have hstates : traverseRefs (sps.map (fun s => (s, 0))) refs
      = sps.map (fun s => (s, refs.count s.rid)) := by
    simpa using traverseRefs_counts sps refs (fun _ => 0)
  constructor
  · unfold processPlan
    rw [hstates, List.filterMap_append, subplanLogPass_no_standalone, List.nil_append,
      subplanLogPass_orphans]
    simp only [List.filter_map, List.map_map, List.filterMap_map]
    have hfun : (standaloneOf ∘ (fun s => PlanEvent.processedStandalone s.rid p)
          ∘ (fun x : SubplanInfo × Nat => x.1)
          ∘ (fun s : SubplanInfo => (s, List.count s.rid refs)))
        = some ∘ (fun s : SubplanInfo => (s.rid, p)) := rfl
    rw [hfun, List.filterMap_eq_map]
    rfl
  · unfold processPlan
    rw [hstates, List.filterMap_append, subplanLogPass_multiply]
    have h2 : (((subplanLogPass ((sps.map (fun s => (s, refs.count s.rid))))).2).map
        (fun s => PlanEvent.processedStandalone s.rid p)).filterMap multiplyOf = [] := by
      simp [List.filterMap_map, Function.comp, multiplyOf]
    rw [h2, List.append_nil]
    simp only [List.filter_map, List.map_map]
    rfl


/-! ### Helper lemmas for map_courses runs -/

theorem mc_fst (cache : Cache) (k : Nat) (call : MapCall) :
    (map_courses cache k call).1 = k + 1 := by
  unfold map_courses
  rcases mogrify_course_list cache call.institution call.course_dict with _ | ⟨c0, cs⟩ <;> rfl

theorem mc_req_key (cache : Cache) (k : Nat) (call : MapCall) (r : ReqRow) :
    (map_courses cache k call).2.2 = some r → r.requirement_key = k + 1 := by
  unfold map_courses
  rcases mogrify_course_list cache call.institution call.course_dict with _ | ⟨c0, cs⟩
  · intro h; simp at h
  · intro h
    simp only [Option.some.injEq] at h
    rw [← h]

theorem mc_map_key (cache : Cache) (k : Nat) (call : MapCall) (m : MapRow) :
    m ∈ (map_courses cache k call).2.1 → m.requirement_key = k + 1 := by
  unfold map_courses
  rcases mogrify_course_list cache call.institution call.course_dict with _ | ⟨c0, cs⟩
  · intro h; simp at h
  · intro h
    simp only [List.mem_map] at h
    obtain ⟨ci, _, hci⟩ := h
    rw [← hci]

theorem mc_rows_nil_iff (cache : Cache) (k : Nat) (call : MapCall) :
    (map_courses cache k call).2.1 = [] ↔ (map_courses cache k call).2.2 = none := by
  unfold map_courses
  rcases mogrify_course_list cache call.institution call.course_dict with _ | ⟨c0, cs⟩ <;> simp

theorem mc_rows_length (cache : Cache) (k : Nat) (call : MapCall) :
    (map_courses cache k call).2.1.length
      = (mogrify_course_list cache call.institution call.course_dict).length := by
  unfold map_courses
  rcases mogrify_course_list cache call.institution call.course_dict with _ | ⟨c0, cs⟩ <;> simp

theorem mc_empty (cache : Cache) (k : Nat) (call : MapCall) :
    mogrify_course_list cache call.institution call.course_dict = [] →
    (map_courses cache k call).2 = ([], none) := by
  intro h
  unfold map_courses
  rw [h]

theorem run_fst (cache : Cache) (calls : List MapCall) :
    ∀ k, (run_map_courses cache k calls).1 = k + calls.length := by
  induction calls with
  | nil => intro k; rfl
  | cons c cs ih =>
    intro k
    unfold run_map_courses
    rw [ih, mc_fst]
    simp [Nat.add_assoc, Nat.add_comm 1 cs.length]

theorem run_req_lb (cache : Cache) (calls : List MapCall) :
    ∀ k r, r ∈ (run_map_courses cache k calls).2.2 → k < r.requirement_key := by
  induction calls with
  | nil => intro k r h; simp [run_map_courses] at h
  | cons c cs ih =>
    intro k r h
    unfold run_map_courses at h
    simp only [List.mem_append] at h
    rcases h with h | h
    · rcases hopt : (map_courses cache k c).2.2 with _ | r0
      · rw [hopt] at h; simp at h
      · rw [hopt] at h
        simp only [Option.toList_some, List.mem_singleton] at h
        rw [h, mc_req_key cache k c r0 hopt]
        omega
    · have := ih (map_courses cache k c).1 r h
      rw [mc_fst] at this
      omega

theorem run_map_lb (cache : Cache) (calls : List MapCall) :
    ∀ k m, m ∈ (run_map_courses cache k calls).2.1 → k < m.requirement_key := by
  induction calls with
  | nil => intro k m h; simp [run_map_courses] at h
  | cons c cs ih =>
    intro k m h
    unfold run_map_courses at h
    simp only [List.mem_append] at h
    rcases h with h | h
    · rw [mc_map_key cache k c m h]
      omega
    · have := ih (map_courses cache k c).1 m h
      rw [mc_fst] at this
      omega

/-- C2.  The requirement keys of the requirement rows emitted during a
run are strictly increasing in emission order; in particular no key is
assigned to two emitted requirements. -/
theorem requirement_keys_strictly_increasing (cache : Cache) (k : Nat)
    (calls : List MapCall) :
    ((run_map_courses cache k calls).2.2.map (fun r => r.requirement_key)).Pairwise
      (· < ·) := by
  induction calls generalizing k with
  | nil => simp [run_map_courses]
  | cons c cs ih =>
    unfold run_map_courses
    simp only [List.map_append]
    rw [List.pairwise_append]
    refine ⟨?_, ?_, ?_⟩
    · rcases hopt : (map_courses cache k c).2.2 with _ | r0 <;> simp
    · exact ih (map_courses cache k c).1
    · intro a ha b hb
      have hb2 : ∃ rb ∈ (run_map_courses cache (map_courses cache k c).1 cs).2.2,
          rb.requirement_key = b := by
        simpa using List.mem_map.mp hb
      obtain ⟨rb, hrb, hrbk⟩ := hb2
      have hlb := run_req_lb cache cs (map_courses cache k c).1 rb hrb
      rw [mc_fst] at hlb
      have ha2 : ∃ ra ∈ (map_courses cache k c).2.2.toList, ra.requirement_key = a := by
        simpa using List.mem_map.mp ha
      obtain ⟨ra, hra, hrak⟩ := ha2
      rcases hopt : (map_courses cache k c).2.2 with _ | r0
      · rw [hopt] at hra; simp at hra
      · rw [hopt] at hra
        simp only [Option.toList_some, List.mem_singleton] at hra
        rw [hra] at hrak
        have := mc_req_key cache k c r0 hopt
        omega

/-- C9.  Join integrity between the two output streams: every
requirement key on a CourseMappings row matches exactly one Requirements
row; within one call a non-empty canonical list yields one mapping row
per canonical course, all carrying the call key, and an empty canonical
list yields no rows of either kind. -/
theorem mapping_rows_have_unique_requirement_row :
    (∀ (cache : Cache) (k : Nat) (calls : List MapCall) (key : Nat),
        key ∈ (run_map_courses cache k calls).2.1.map (fun m => m.requirement_key) →
        (run_map_courses cache k calls).2.2.countP
            (fun r => decide (r.requirement_key = key)) = 1) ∧
    (∀ (cache : Cache) (k : Nat) (call : MapCall),
        (map_courses cache k call).2.1.length
            = (mogrify_course_list cache call.institution call.course_dict).length ∧
        ∀ m ∈ (map_courses cache k call).2.1, m.requirement_key = k + 1) ∧
    (∀ (cache : Cache) (k : Nat) (call : MapCall),
        mogrify_course_list cache call.institution call.course_dict = [] →
        (map_courses cache k call).2 = ([], none)) := by
  refine ⟨?_, fun cache k call => ⟨mc_rows_length cache k call, mc_map_key cache k call⟩,
    mc_empty⟩
  intro cache k calls
  induction calls generalizing k with
  | nil => intro key h; simp [run_map_courses] at h
  | cons c cs ih =>
    intro key h
    unfold run_map_courses at h ⊢
    rw [List.countP_append]
    simp only [List.map_append, List.mem_append] at h
    rcases h with h | h
    · have hkey : key = k + 1 := by
        obtain ⟨m, hm, hmk⟩ := List.mem_map.mp h
        rw [← hmk, mc_map_key cache k c m hm]
      have hrows : (map_courses cache k c).2.1 ≠ [] := by
        intro hnil
        rw [hnil] at h
        simp at h
      have hreq : ∃ r0, (map_courses cache k c).2.2 = some r0 := by
        rcases hopt : (map_courses cache k c).2.2 with _ | r0
        · exact absurd ((mc_rows_nil_iff cache k c).mpr hopt) hrows
        · exact ⟨r0, rfl⟩
      obtain ⟨r0, hr0⟩ := hreq
      have hcount1 : ((map_courses cache k c).2.2.toList).countP
          (fun r => decide (r.requirement_key = key)) = 1 := by
        rw [hr0]
        simp [mc_req_key cache k c r0 hr0, hkey]
      have hcount0 : ((run_map_courses cache (map_courses cache k c).1 cs).2.2).countP
          (fun r => decide (r.requirement_key = key)) = 0 := by
        rw [List.countP_eq_zero]
        intro r hr
        have := run_req_lb cache cs (map_courses cache k c).1 r hr
        rw [mc_fst] at this
        simp only [decide_eq_true_eq]
        omega
      omega
    · have hkey : k + 1 < key := by
        obtain ⟨m, hm, hmk⟩ := List.mem_map.mp h
        have := run_map_lb cache cs (map_courses cache k c).1 m hm
        rw [mc_fst] at this
        omega
      have hcount0 : ((map_courses cache k c).2.2.toList).countP
          (fun r => decide (r.requirement_key = key)) = 0 := by
        rcases hopt : (map_courses cache k c).2.2 with _ | r0
        · simp
        · have hne : ¬(r0.requirement_key = key) := by
            have := mc_req_key cache k c r0 hopt
            omega
          simp [hne]
      have hcount1 := ih (map_courses cache k c).1 key h
      omega

/-- C9 witness: a concrete run in which key 1 appears on a mapping row
and on exactly one requirement row, and a concrete call whose empty
normalization emits no rows. -/
theorem mapping_rows_have_unique_requirement_row_witness :
    ((1 ∈ (run_map_courses cacheW 0 [callPlain]).2.1.map (fun m => m.requirement_key)) ∧
      (run_map_courses cacheW 0 [callPlain]).2.2.countP
          (fun r => decide (r.requirement_key = 1)) = 1) ∧
    (mogrify_course_list cacheW callEmpty.institution callEmpty.course_dict = [] ∧
      (map_courses cacheW 0 callEmpty).2 = ([], none)) :=
  ⟨⟨by decide, mapping_rows_have_unique_requirement_row.1 cacheW 0 [callPlain] 1 (by decide)⟩,
    ⟨by decide, mapping_rows_have_unique_requirement_row.2.2 cacheW 0 callEmpty (by decide)⟩⟩

/-- C10.  The requirement-key counter is advanced by exactly one on
every map_courses call, including calls whose normalization yields no
courses and therefore emit no rows; consequently emitted keys can have
gaps: a concrete run whose middle call normalizes to nothing emits keys
1 and 3. -/
theorem requirement_key_incremented_every_call :
    (∀ (cache : Cache) (k : Nat) (call : MapCall), (map_courses cache k call).1 = k + 1) ∧
    (∀ (cache : Cache) (k : Nat) (calls : List MapCall),
        (run_map_courses cache k calls).1 = k + calls.length) ∧
    ((run_map_courses cacheW 0 [callPlain, callEmpty, callPlain]).2.2.map
        (fun r => r.requirement_key) = [1, 3]) :=
  ⟨mc_fst, fun cache k calls => run_fst cache calls k, by decide⟩


/-! ### Helper lemmas for header conditional tagging -/

theorem tag_false_tt (concise : Bool) (cond : String) (rd : RD) (st : TagSt) (l : QList) :
    ((tag concise cond false rd st l).2).tt = st.tt := by
  unfold tag
  by_cases hm : l ∈ st.tf <;> simp [hm]

theorem tag_true_tt (concise : Bool) (cond : String) (rd : RD) (st : TagSt) (l : QList) :
    ((tag concise cond true rd st l).2).tt
      = if l ∈ st.tt then st.tt else st.tt ++ [l] := by
  unfold tag
  by_cases hm : l ∈ st.tt <;> simp [hm]

theorem hcLeg_false_tt (concise : Bool) (cond : String) (items : List HItem) :
    ∀ rd st, ((hcLeg concise cond false rd st items).2).tt = st.tt := by
  induction items with
  | nil => intro rd st; rfl
  | cons i rest ih =>
    intro rd st
    cases i with
    | qual target payload =>
      simp only [hcLeg, hcItem]
      rw [ih]
      exact tag_false_tt concise cond rd st target
    | share =>
      simp only [hcLeg, hcItem]
      exact ih rd st
    | unknownKey =>
      simp only [hcLeg, hcItem]
      exact ih rd st
    | nested c ts fs =>
      show (hcLeg concise cond false
          (hcItem concise cond false rd st (HItem.nested c ts fs)).1 st rest).2.tt = st.tt
      exact ih _ st

theorem hcLeg_true_nodup (concise : Bool) (cond : String) (items : List HItem) :
    ∀ rd st, st.tt.Nodup → ((hcLeg concise cond true rd st items).2).tt.Nodup := by
  induction items with
  | nil => intro rd st h; exact h
  | cons i rest ih =>
    intro rd st h
    cases i with
    | qual target payload =>
      simp only [hcLeg, hcItem]
      apply ih
      rw [tag_true_tt]
      by_cases hm : target ∈ st.tt
      · simpa [hm] using h
      · simp only [hm, if_false]
        rw [List.nodup_append]
        refine ⟨h, List.nodup_singleton target, ?_⟩
        intro a ha hat
        simp only [List.mem_singleton] at hat
        exact hm (hat ▸ ha)
    | share =>
      simp only [hcLeg, hcItem]
      exact ih rd st h
    | unknownKey =>
      simp only [hcLeg, hcItem]
      exact ih rd st h
    | nested c ts fs =>
      show (hcLeg concise cond true
          (hcItem concise cond true rd st (HItem.nested c ts fs)).1 st rest).2.tt.Nodup
      exact ih _ st h

theorem appendEndifs_apply (concise : Bool) (cond : String) (ls : List QList) :
    ∀ (rd : RD) (l : QList), ls.Nodup →
      appendEndifs concise cond rd ls l
        = if l ∈ ls then rd l ++ [HEntry.endifTag (endifStr concise cond)] else rd l := by
  induction ls with
  | nil => intro rd l _; simp [appendEndifs]
  | cons a rest ih =>
    intro rd l h
    have ha : a ∉ rest := (List.nodup_cons.mp h).1
    have hrest : rest.Nodup := (List.nodup_cons.mp h).2
    simp only [appendEndifs]
    rw [ih _ _ hrest]
    by_cases hla : l = a
    · subst hla
      simp [rdUpdate, ha]
    · by_cases hlr : l ∈ rest <;> simp [rdUpdate, hla, hlr]

theorem hcLegs_tt (concise : Bool) (rd : RD) (cond : String) (tIt : List HItem)
    (fIt : Option (List HItem)) :
    (hcLegs concise rd cond tIt fIt).2.tt
      = (hcLeg concise cond true rd ⟨[], []⟩ tIt).2.tt := by
  unfold hcLegs
  cases fIt with
  | none => rfl
  | some fs => exact hcLeg_false_tt concise cond fs _ _

/-- C3.  Amended conditional tagging: when a header Conditional
concludes, an endif marker is appended exactly once to every qualifier
list recorded as opened during the true leg, and to no other list; the
false leg records no list for closing (its open tags are left
unterminated, as the counterexample shows).  For the conditional of the
claim, populating only the min-gpa list on the true leg, the emitted
min-gpa list is exactly the open tag, the value and the closing endif
marker, and no other list receives anything. -/
theorem header_conditional_endif_true_leg_only :
    (∀ (concise : Bool) (rd : RD) (cond : String) (tIt : List HItem)
        (fIt : Option (List HItem)) (l : QList),
      header_conditional concise rd cond tIt fIt l
        = if l ∈ (hcLegs concise rd cond tIt fIt).2.tt
          then (hcLegs concise rd cond tIt fIt).1 l
              ++ [HEntry.endifTag (endifStr concise cond)]
          else (hcLegs concise rd cond tIt fIt).1 l) ∧
    (∀ (concise : Bool) (rd : RD) (cond : String) (tIt : List HItem)
        (fIt : Option (List HItem)),
      (hcLegs concise rd cond tIt fIt).2.tt
        = (hcLeg concise cond true rd ⟨[], []⟩ tIt).2.tt) ∧
    (∀ l : QList,
      header_conditional false (fun _ => []) "X" [HItem.qual QList.mingpa "3.0"] none l
        = if l = QList.mingpa
          then [HEntry.tagIfTrue "X", HEntry.val "3.0", HEntry.endifTag "X"]
          else []) := by
  refine ⟨?_, hcLegs_tt, ?_⟩
  · intro concise rd cond tIt fIt l
    unfold header_conditional
    apply appendEndifs_apply
    rw [hcLegs_tt]
    exact hcLeg_true_nodup concise cond tIt rd ⟨[], []⟩ (by simp)
  · intro l
    cases l <;> decide


/-! ### Helper lemmas for the copy_rules cycle guard -/

theorem runBody_mono (blocks : BlockMap) :
    ∀ fuel fuel2 ctx body evs, fuel ≤ fuel2 →
      runBody blocks fuel ctx body = some evs → runBody blocks fuel2 ctx body = some evs := by
  intro fuel
  induction fuel with
  | zero =>
    intro fuel2 ctx body evs _ h
    simp [runBody] at h
  | succ fuel ih =>
    intro fuel2 ctx body evs hle h
    rcases fuel2 with _ | fuel2
    · omega
    have hle2 : fuel ≤ fuel2 := by omega
    cases body with
    | nil => simpa [runBody] using h
    | cons t rest =>
      simp only [runBody] at h
      cases hb : blocks t with
      | none =>
        simp only [hb] at h
        obtain ⟨evs0, hevs0, hmap⟩ := Option.map_eq_some'.mp h
        simp only [runBody, hb]
        rw [ih fuel2 ctx rest evs0 hle2 hevs0]
        simp [hmap]
      | some tBody =>
        simp only [hb] at h
        by_cases hc : bodyCircular ctx t
        · rw [if_pos hc] at h
          obtain ⟨evs0, hevs0, hmap⟩ := Option.map_eq_some'.mp h
          simp only [runBody, hb, if_pos hc]
          rw [ih fuel2 ctx rest evs0 hle2 hevs0]
          simp [hmap]
        · rw [if_neg hc] at h
          rcases hd : runBody blocks fuel (ctx ++ [CFrame.plainFrame, CFrame.localCopy t])
              tBody with _ | evs1
          · rw [hd] at h; simp at h
          · rw [hd] at h
            obtain ⟨evs0, hevs0, hmap⟩ := Option.map_eq_some'.mp h
            simp only [runBody, hb, if_neg hc]
            rw [ih fuel2 _ tBody evs1 hle2 hd]
            rw [ih fuel2 ctx rest evs0 hle2 hevs0]
            simp only [Option.map_some]
            exact congrArg some hmap

theorem filter_and_length_le {α : Type} (p q : α → Bool) (l : List α) :
    (l.filter (fun i => p i && q i)).length ≤ (l.filter p).length := by
  induction l with
  | nil => simp
  | cons a rest ih =>
    cases hp : p a <;> cases hq : q a <;> simp [hp, hq] <;> omega

theorem bodyCircular_splice (ctx : List CFrame) (t i : String) :
    bodyCircular (ctx ++ [CFrame.plainFrame, CFrame.localCopy t]) i
      = (bodyCircular ctx i || decide (t = i)) := by
  simp [bodyCircular, List.any_append, isLocalWith]

theorem remaining_splice_lt (ids : List String) (ctx : List CFrame) (t : String)
    (hmem : t ∈ ids) (hnc : bodyCircular ctx t = false) :
    (ids.filter (fun i =>
        !(bodyCircular (ctx ++ [CFrame.plainFrame, CFrame.localCopy t]) i))).length
      < (ids.filter (fun i => !(bodyCircular ctx i))).length := by
  have hpred : (fun i => !(bodyCircular (ctx ++ [CFrame.plainFrame, CFrame.localCopy t]) i))
      = (fun i => !(bodyCircular ctx i) && !(decide (t = i))) := by
    funext i
    rw [bodyCircular_splice]
    cases bodyCircular ctx i <;> cases hd : decide (t = i) <;> simp
  rw [hpred]
  have hsub : List.Sublist
      (ids.filter (fun i => !(bodyCircular ctx i) && !(decide (t = i))))
      (ids.filter (fun i => !(bodyCircular ctx i))) := by
    apply List.monotone_filter_right
    intro a ha
    exact (Bool.and_elim_left ha)
  have hmemb : t ∈ ids.filter (fun i => !(bodyCircular ctx i)) := by
    rw [List.mem_filter]
    exact ⟨hmem, by simp [hnc]⟩
  have hnotin : t ∉ ids.filter (fun i => !(bodyCircular ctx i) && !(decide (t = i))) := by
    rw [List.mem_filter]
    simp
  have hle := List.Sublist.length_le hsub
  rcases Nat.lt_or_ge
      (ids.filter (fun i => !(bodyCircular ctx i) && !(decide (t = i)))).length
      (ids.filter (fun i => !(bodyCircular ctx i))).length with hlt | hge
  · exact hlt
  · exfalso
    have heq := List.Sublist.eq_of_length_le hsub hge
    rw [heq] at hnotin
    exact hnotin hmemb

theorem exists_runBody (ids : List String) (blocks : BlockMap)
    (hcl : ∀ r b, blocks r = some b → ∀ t ∈ b, t ∈ ids) :
    ∀ n ctx body, (∀ t ∈ body, t ∈ ids) →
      (ids.filter (fun i => !(bodyCircular ctx i))).length ≤ n →
      ∃ fuel evs, runBody blocks fuel ctx body = some evs := by
  intro n
  induction n with
  | zero =>
    intro ctx body hb hrem
    induction body with
    | nil => exact ⟨1, [], rfl⟩
    | cons t rest ihrest =>
      obtain ⟨f2, evs2, h2⟩ := ihrest (fun x hx => hb x (List.mem_cons_of_mem t hx))
      cases hblk : blocks t with
      | none =>
        refine ⟨f2 + 1, CEvent.missing t :: evs2, ?_⟩
        simp only [runBody, hblk]
        rw [runBody_mono blocks f2 f2 ctx rest evs2 (Nat.le_refl f2) h2]
        rfl
      | some tBody =>
        by_cases hc : bodyCircular ctx t
        · refine ⟨f2 + 1, CEvent.refuseCircular t :: evs2, ?_⟩
          simp only [runBody, hblk, if_pos hc]
          rw [runBody_mono blocks f2 f2 ctx rest evs2 (Nat.le_refl f2) h2]
          rfl
        · exfalso
          have hmem : t ∈ ids.filter (fun i => !(bodyCircular ctx i)) := by
            rw [List.mem_filter]
            refine ⟨hb t (List.mem_cons_self t rest), ?_⟩
            cases hcc : bodyCircular ctx t
            · rfl
            · exact absurd hcc hc
          have : 0 < (ids.filter (fun i => !(bodyCircular ctx i))).length :=
            List.length_pos.mpr (List.ne_nil_of_mem hmem)
          omega
  | succ n ihn =>
    intro ctx body hb hrem
    induction body with
    | nil => exact ⟨1, [], rfl⟩
    | cons t rest ihrest =>
      obtain ⟨f2, evs2, h2⟩ := ihrest (fun x hx => hb x (List.mem_cons_of_mem t hx))
      cases hblk : blocks t with
      | none =>
        refine ⟨f2 + 1, CEvent.missing t :: evs2, ?_⟩
        simp only [runBody, hblk]
        rw [runBody_mono blocks f2 f2 ctx rest evs2 (Nat.le_refl f2) h2]
        rfl
      | some tBody =>
        by_cases hc : bodyCircular ctx t
        · refine ⟨f2 + 1, CEvent.refuseCircular t :: evs2, ?_⟩
          simp only [runBody, hblk, if_pos hc]
          rw [runBody_mono blocks f2 f2 ctx rest evs2 (Nat.le_refl f2) h2]
          rfl
        · have hnc : bodyCircular ctx t = false := by
            cases hcc : bodyCircular ctx t
            · rfl
            · exact absurd hcc hc
          have hlt := remaining_splice_lt ids ctx t (hb t (List.mem_cons_self t rest)) hnc
          obtain ⟨f1, evs1, h1⟩ := ihn (ctx ++ [CFrame.plainFrame, CFrame.localCopy t]) tBody
            (hcl t tBody hblk) (by omega)
          refine ⟨f1 + f2 + 1, CEvent.enter t :: evs1 ++ evs2, ?_⟩
          simp only [runBody, hblk, if_neg hc]
          rw [runBody_mono blocks f1 (f1 + f2) _ tBody evs1 (by omega) h1]
          rw [runBody_mono blocks f2 (f1 + f2) ctx rest evs2 (by omega) h2]
          rfl

/-- C4.  Amended cycle guard.  In the body copy_rules chain A to B to A
the interpreter enters A a second time and refuses only the following
reference back to B, because its cycle scan sees only the synthetic
frames pushed by earlier copy_rules splices (the frames with a
top-level requirement_id key), not block-entry frames; recursion is
nonetheless finite: whenever every block body draws its copy_rules
targets from a finite id list, some finite fuel makes the interpreter
finish with an event trace instead of exhausting its step budget. -/
theorem copy_rules_frame_guard_and_termination :
    (runFromBlock blocksAB 9 "A"
        = some [CEvent.enter "B", CEvent.enter "A", CEvent.refuseCircular "B"]) ∧
    (∀ (ids : List String) (blocks : BlockMap) (rid : String),
      (∀ r b, blocks r = some b → ∀ t ∈ b, t ∈ ids) →
      ∃ fuel evs, runFromBlock blocks fuel rid = some evs) := by
  constructor
  · decide
  · intro ids blocks rid hcl
    unfold runFromBlock
    cases hb : blocks rid with
    | none => exact ⟨0, [], rfl⟩
    | some body =>
      have hroot : (ids.filter
          (fun i => !(bodyCircular [CFrame.blockEntry rid] i))).length ≤ ids.length := by
        have := List.length_filter_le (fun i => !(bodyCircular [CFrame.blockEntry rid] i)) ids
        omega
      obtain ⟨fuel, evs, h⟩ := exists_runBody ids blocks hcl ids.length
        [CFrame.blockEntry rid] body (hcl rid body hb) hroot
      exact ⟨fuel, evs, h⟩

/-- C4 witness: the two-block map is closed over the id list A, B, and
the termination conjunct applied to it yields a finishing fuel. -/
theorem copy_rules_frame_guard_and_termination_witness :
    (∀ r b, blocksAB r = some b → ∀ t ∈ b, t ∈ ["A", "B"]) ∧
    (∃ fuel evs, runFromBlock blocksAB fuel "A" = some evs) := by
  have hcl : ∀ r b, blocksAB r = some b → ∀ t ∈ b, t ∈ ["A", "B"] := by
    intro r b hrb t ht
    unfold blocksAB at hrb
    by_cases hA : r = "A"
    · rw [if_pos hA] at hrb
      simp only [Option.some.injEq] at hrb
      rw [← hrb] at ht
      simp only [List.mem_singleton] at ht
      simp [ht]
    · rw [if_neg hA] at hrb
      by_cases hB : r = "B"
      · rw [if_pos hB] at hrb
        simp only [Option.some.injEq] at hrb
        rw [← hrb] at ht
        simp only [List.mem_singleton] at ht
        simp [ht]
      · rw [if_neg hB] at hrb
        simp at hrb
  exact ⟨hcl, copy_rules_frame_guard_and_termination.2 ["A", "B"] blocksAB "A" hcl⟩


/-! ### Helper lemmas for mogrify_course_list -/

theorem mem_scribedInsert (t : CourseTupleS) (ci ci2 : CourseInfo)
    (acc : List CourseInfo × List ((Nat × Nat) × String)) :
    ci2 ∈ (scribedInsert t ci acc).1
      ↔ ((tupleBad t = false ∧ ci2 = ci) ∨ ci2 ∈ acc.1) := by
  unfold scribedInsert tupleBad
  cases t.with_clause with
  | none => simp [List.mem_insert_iff]
  | some w =>
    by_cases hw : w = ""
    · simp [hw, List.mem_insert_iff]
    · cases hbad : (subOf ("dwterm".data) (lowerL w) || subOf ("attribute".data) (lowerL w)) with
      | true => simp [hw, hbad]
      | false => simp [hw, hbad, List.mem_insert_iff]

theorem mem_addScribedInfos (t : CourseTupleS) (ci2 : CourseInfo) :
    ∀ (cis : List CourseInfo) (acc : List CourseInfo × List ((Nat × Nat) × String)),
      ci2 ∈ (addScribedInfos t cis acc).1
        ↔ ((tupleBad t = false ∧ ci2 ∈ cis) ∨ ci2 ∈ acc.1) := by
  intro cis
  induction cis with
  | nil => intro acc; simp [addScribedInfos]
  | cons ci cis ih =>
    intro acc
    rw [addScribedInfos, ih, mem_scribedInsert]
    simp only [List.mem_cons]
    tauto

theorem mem_scribedPass (cache : Cache) (inst : String) (ci2 : CourseInfo) :
    ∀ (ts : List CourseTupleS) (acc : List CourseInfo × List ((Nat × Nat) × String)),
      ci2 ∈ (scribedPass cache inst ts acc).1
        ↔ ((∃ t ∈ ts, tupleBad t = false
              ∧ ci2 ∈ cache inst t.discipline t.catalog_number) ∨ ci2 ∈ acc.1) := by
  intro ts
  induction ts with
  | nil => intro acc; simp [scribedPass]
  | cons t ts ih =>
    intro acc
    rw [scribedPass, ih, mem_addScribedInfos]
    simp only [List.mem_cons]
    constructor
    · rintro (⟨t2, ht2, hb, hm⟩ | (⟨hb, hm⟩ | hm))
      · exact Or.inl ⟨t2, Or.inr ht2, hb, hm⟩
      · exact Or.inl ⟨t, Or.inl rfl, hb, hm⟩
      · exact Or.inr hm
    · rintro (⟨t2, ht2 | ht2, hb, hm⟩ | hm)
      · subst ht2; exact Or.inr (Or.inl ⟨hb, hm⟩)
      · exact Or.inl ⟨t2, ht2, hb, hm⟩
      · exact Or.inr (Or.inr hm)

theorem mem_addExcludeInfos (ci2 : CourseInfo) :
    ∀ (cis s : List CourseInfo),
      ci2 ∈ addExcludeInfos cis s ↔ (ci2 ∈ cis ∨ ci2 ∈ s) := by
  intro cis
  induction cis with
  | nil => intro s; simp [addExcludeInfos]
  | cons ci cis ih =>
    intro s
    rw [addExcludeInfos, ih]
    simp only [List.mem_cons, List.mem_insert_iff]
    tauto

theorem mem_excludePass (cache : Cache) (inst : String) (ci2 : CourseInfo) :
    ∀ (ts : List CourseTupleS) (s : List CourseInfo),
      ci2 ∈ excludePass cache inst ts s
        ↔ ((∃ t ∈ ts, ci2 ∈ cache inst t.discipline t.catalog_number) ∨ ci2 ∈ s) := by
  intro ts
  induction ts with
  | nil => intro s; simp [excludePass]
  | cons t ts ih =>
    intro s
    rw [excludePass, ih, mem_addExcludeInfos]
    simp only [List.mem_cons]
    constructor
    · rintro (⟨t2, ht2, hm⟩ | (hm | hm))
      · exact Or.inl ⟨t2, Or.inr ht2, hm⟩
      · exact Or.inl ⟨t, Or.inl rfl, hm⟩
      · exact Or.inr hm
    · rintro (⟨t2, ht2 | ht2, hm⟩ | hm)
      · subst ht2; exact Or.inr (Or.inl hm)
      · exact Or.inl ⟨t2, ht2, hm⟩
      · exact Or.inr (Or.inr hm)

theorem mem_expandInfos (cache : Cache) (inst : String) (ci : CourseInfo) :
    ∀ ts : List CourseTupleS,
      ci ∈ expandInfos cache inst ts
        ↔ ∃ t ∈ ts, ci ∈ cache inst t.discipline t.catalog_number := by
  intro ts
  induction ts with
  | nil => simp [expandInfos]
  | cons t ts ih =>
    rw [expandInfos]
    simp only [List.mem_append, ih, List.mem_cons]
    constructor
    · rintro (hm | ⟨t2, ht2, hm⟩)
      · exact ⟨t, Or.inl rfl, hm⟩
      · exact ⟨t2, Or.inr ht2, hm⟩
    · rintro ⟨t2, ht2 | ht2, hm⟩
      · subst ht2; exact Or.inl hm
      · exact Or.inr ⟨t2, ht2, hm⟩

theorem mem_courseInfoSet (cache : Cache) (inst : String) (cd : CourseDictS)
    (ci : CourseInfo) :
    ci ∈ (courseInfoSet cache inst cd).1
      ↔ ci ∈ expandInfos cache inst (goodScribed cd) := by
  unfold courseInfoSet goodScribed
  rw [mem_scribedPass, mem_expandInfos]
  simp only [List.not_mem_nil, or_false]
  constructor
  · rintro ⟨t, ht, hb, hm⟩
    refine ⟨t, ?_, hm⟩
    rw [List.mem_filter]
    exact ⟨List.mem_dedup.mp ht, by simp [hb]⟩
  · rintro ⟨t, ht, hm⟩
    rw [List.mem_filter] at ht
    refine ⟨t, List.mem_dedup.mpr ht.1, ?_, hm⟩
    have := ht.2
    cases hb : tupleBad t
    · rfl
    · rw [hb] at this; simp at this

theorem mem_excludeInfoSet (cache : Cache) (inst : String) (cd : CourseDictS)
    (ci : CourseInfo) :
    ci ∈ excludeInfoSet cache inst cd
      ↔ ci ∈ expandInfos cache inst cd.except_courses := by
  unfold excludeInfoSet
  rw [mem_excludePass, mem_expandInfos]
  simp only [List.not_mem_nil, or_false]
  constructor
  · rintro ⟨t, ht, hm⟩
    exact ⟨t, List.mem_dedup.mp ht, hm⟩
  · rintro ⟨t, ht, hm⟩
    exact ⟨t, List.mem_dedup.mpr ht, hm⟩

theorem mem_mogrifyIds (cache : Cache) (inst : String) (cd : CourseDictS) (id : String) :
    id ∈ mogrifyIds cache inst cd
      ↔ ∃ ci, ci ∈ (courseInfoSet cache inst cd).1
          ∧ ci ∉ excludeInfoSet cache inst cd ∧ fmtIdStr ci = id := by
  unfold mogrifyIds mogrify_course_list
  rcases hcs : courseInfoSet cache inst cd with ⟨cset, wcs⟩
  simp only [List.map_map, List.mem_map, Function.comp, List.mem_filter,
    decide_eq_true_eq]
  constructor
  · rintro ⟨ci, ⟨hmem, hnot⟩, hid⟩
    exact ⟨ci, hmem, hnot, hid⟩
  · rintro ⟨ci, hmem, hnot, hid⟩
    exact ⟨ci, ⟨hmem, hnot⟩, hid⟩

/-- C1 counterexample.  A scribed course whose with-clause mentions
DWTerm is dropped from the normalized set entirely even though nothing
excludes it: the catalog expansion of the scribed list contains the
course identity, the exclude expansion is empty, yet the returned
identity set is empty, so the result does not contain every identity in
the expansion of the scribed list minus the expansion of the excludes. -/
theorem mogrify_drops_dwterm_scribes :
    mogrifyIds cacheW2 "I" cdDwterm = [] ∧
    "000100:1" ∈ expandIds cacheW2 "I" (scribedTuples cdDwterm) ∧
    expandIds cacheW2 "I" cdDwterm.except_courses = [] := by
  refine ⟨?_, ?_, ?_⟩ <;> decide

/-- C1.  Amended exclusion semantics of `mogrify_course_list`: over a
consistent catalog, the returned identity set is exactly the catalog
expansion of the kept scribed tuples (those whose with-clause does not
mention dwterm or attribute) minus the catalog expansion of the exclude
list.  In particular it never contains an excluded identity, and it
contains every identity of the expansion of the kept scribed tuples
that is not excluded. -/
theorem mogrify_exclusion_set_difference (cache : Cache) (inst : String)
    (hc : CacheConsistent cache inst) (cd : CourseDictS) (id : String) :
    id ∈ mogrifyIds cache inst cd
      ↔ (id ∈ expandIds cache inst (goodScribed cd)
          ∧ id ∉ expandIds cache inst cd.except_courses) := by
  rw [mem_mogrifyIds]
  constructor
  · rintro ⟨ci, hcset, hnotex, hid⟩
    have hgood := (mem_courseInfoSet cache inst cd ci).mp hcset
    constructor
    · exact List.mem_map.mpr ⟨ci, hgood, hid⟩
    · intro hidE
      obtain ⟨r2, hr2, hr2id⟩ := List.mem_map.mp hidE
      obtain ⟨t1, _, hcit⟩ := (mem_expandInfos cache inst ci _).mp hgood
      obtain ⟨t2, _, hr2t⟩ := (mem_expandInfos cache inst r2 _).mp hr2
      have heq : r2 = ci :=
        hc t2.discipline t2.catalog_number t1.discipline t1.catalog_number r2 ci
          hr2t hcit (by rw [hr2id, hid])
      apply hnotex
      rw [mem_excludeInfoSet]
      rw [← heq]
      exact hr2
  · rintro ⟨hidG, hidE⟩
    obtain ⟨ci, hciG, hid⟩ := List.mem_map.mp hidG
    refine ⟨ci, (mem_courseInfoSet cache inst cd ci).mpr hciG, ?_, hid⟩
    intro hciE
    apply hidE
    have hm := (mem_excludeInfoSet cache inst cd ci).mp hciE
    exact List.mem_map.mpr ⟨ci, hm, hid⟩

/-- C1 witness: the one-course catalog is consistent, and the amended
set-difference equivalence holds at the concrete identity of BIO 101. -/
theorem mogrify_exclusion_set_difference_witness :
    CacheConsistent cacheW "I" ∧
    (("000101:1" ∈ mogrifyIds cacheW "I" cdPlain)
      ↔ ("000101:1" ∈ expandIds cacheW "I" (goodScribed cdPlain)
          ∧ "000101:1" ∉ expandIds cacheW "I" cdPlain.except_courses)) :=
  have hc : CacheConsistent cacheW "I" := by
    intro d1 c1 d2 c2 r1 r2 h1 h2 _
    have e1 : r1 = bio101 := by
      unfold cacheW at h1
      split at h1
      · simpa using h1
      · simp at h1
    have e2 : r2 = bio101 := by
      unfold cacheW at h2
      split at h2
      · simpa using h2
      · simp at h2
    rw [e1, e2]
  ⟨hc, mogrify_exclusion_set_difference cacheW "I" hc cdPlain "000101:1"⟩

end CourseMapper
